import Mathlib

/-!
Verification development for `wordgenerator.py` (Lattyware/wordgenerator):
a Markov-chain word generator that splits words into vowel/consonant
segment triplets, accumulates transition tables, samples new words, and
serialises the model as JSON.

The Python code is embedded shallowly:
* Python strings are `List Char` (`Str`); machine-level details do not arise.
* The mutable attributes of a `WordGenerator` instance become the fields of
  `GenState`; attributes that may not exist yet (`components`, `starts`,
  `vowels` before any `seed`) are `Option`s, and accessing a missing one
  produces `PyError.attributeError`, as in Python.
* Python dicts preserve insertion order, so they are embedded as ordered
  association lists; `collections.Counter` is an ordered association list
  with `Nat` counts.
* Exceptions become a `PyError` value.  Operations that can mutate state
  before raising return `State × Option PyError` (the state reflects any
  mutation done before the exception); read-only operations return
  `Except PyError α × Rand`.
* Randomness (`random.uniform`, `random.choice`) is an explicit stream of
  draws (`Rand`); Python guarantees `uniform(0, max) ∈ [0, max]`, the
  embedding quantifies over arbitrary rationals, a superset.
* The unbounded `while True` loop of `_generate_word` takes explicit fuel;
  exhausted fuel is the artificial error `PyError.outOfFuel` (never an
  `ok` result, so conditional theorems about returned words are unaffected).
-/

namespace WordGen

/-- Python strings, embedded as lists of characters. -/
abbrev Str := List Char

/-- `WordGenerator.MARKER`, the boundary marker `"~"`. -/
def marker : Char := '~'

/-- `WordGenerator.ENGLISH_VOWELS` (a Python set, embedded as a list whose
order is irrelevant: only membership is ever used). -/
def ENGLISH_VOWELS : List Char := ['a', 'e', 'i', 'o', 'u']

/-- `set.add`: insert an element if not already present. -/
def setAdd (c : Char) (l : List Char) : List Char :=
  if c ∈ l then l else l ++ [c]

/-- The exceptions the embedded code can raise.  `outOfFuel` and
`outOfDraws` are artifacts of bounding the loop / the random stream;
`emptyDictionaryError` is the library's `EmptyDictionaryError`. -/
inductive PyError where
  | attributeError
  | keyError
  | typeError
  | valueError
  | indexError
  | emptyDictionaryError
  | outOfFuel
  | outOfDraws
  deriving DecidableEq, Repr

/-- A transition-table value: the `(middle, next_key)` tuple. -/
abbrev Pair := Str × Str

/-- The value collection of one transition-table key in counted form
(a `Counter` / plain dict from value pairs to counts, insertion ordered). -/
abbrev Entries := List (Pair × Nat)

/-- `self.components` in counted form: dict from key segment to counter. -/
abbrev CTable := List (Str × Entries)

/-- `self.components` in unweighted frozen form: dict from key to a list of
value pairs. -/
abbrev UTable := List (Str × List Pair)

/-- The possible runtime shapes of the `components` attribute:
`dd` = `defaultdict(Counter)` (during a fresh seed), `wd` = plain dict of
plain dicts (weighted freeze), `ud` = dict of lists (unweighted freeze). -/
inductive CompT where
  | dd (cs : CTable)
  | wd (cs : CTable)
  | ud (cs : UTable)
  deriving DecidableEq, Repr

/-- The possible runtime shapes of the `starts` attribute:
`sctr` = `Counter` (during a fresh seed), `smap` = plain dict (weighted
freeze), `slist` = list of keys (unweighted freeze). -/
inductive StartT where
  | sctr (st : List (Str × Nat))
  | smap (st : List (Str × Nat))
  | slist (st : List Str)
  deriving DecidableEq, Repr

/-- The mutable state of a `WordGenerator` instance.  `none` fields are
attributes that were never assigned (fresh construction without seeding). -/
structure GenState where
  weighted : Bool
  vowels : Option (List Char) := none
  components : Option CompT := none
  starts : Option StartT := none
  deriving DecidableEq, Repr

/-! ### Ordered association lists (Python dicts) -/

/-- Dict lookup (first matching key; keys are unique in practice). -/
def lookupA {κ β : Type} [DecidableEq κ] (k : κ) : List (κ × β) → Option β
  | [] => none
  | (k', b) :: t => if k' = k then some b else lookupA k t

/-- Dict assignment `d[k] = b`: replace in place, or append a new entry at
the end (Python dicts keep insertion order). -/
def setA {κ β : Type} [DecidableEq κ] (k : κ) (b : β) : List (κ × β) → List (κ × β)
  | [] => [(k, b)]
  | (k', b') :: t => if k' = k then (k', b) :: t else (k', b') :: setA k b t

/-- `Counter[k] += 1`: missing keys count as `0` and are appended. -/
def bumpCtr {κ : Type} [DecidableEq κ] (k : κ) : List (κ × Nat) → List (κ × Nat)
  | [] => [(k, 1)]
  | (k', n) :: t => if k' = k then (k', n + 1) :: t else (k', n) :: bumpCtr k t

/-- `d[k] += 1` on a plain dict: `KeyError` when the key is absent. -/
def bumpDict {κ : Type} [DecidableEq κ] (k : κ) (l : List (κ × Nat)) :
    Except PyError (List (κ × Nat)) :=
  match lookupA k l with
  | none => .error .keyError
  | some n => .ok (setA k (n + 1) l)

/-! ### The segmenter (`split_word` and the regex) -/

/-- One scanning step of `re.findall("([V]+)([^V]+)(?=([V]+))", l)` where
`V` is the vowel class `p`: take the maximal vowel run `k`, the maximal
following non-vowel run `m`, and look ahead (without consuming) at the next
vowel run `k'`.  The `Nat` argument is structural fuel; it is always called
with `l.length`, which suffices because every recursive call strictly
shrinks `l` (fuel keeps the definition kernel-reducible). -/
def ftAux (p : Char → Bool) : Nat → Str → List (Str × Str × Str)
  | 0, _ => []
  | fuel + 1, l =>
    let k := l.takeWhile p
    if k = [] then
      -- no vowel at the scan position: the regex engine skips ahead to the
      -- next vowel character
      match l with
      | [] => []
      | _ :: _ => ftAux p fuel (l.dropWhile (fun c => !p c))
    else
      let rest := l.dropWhile p
      let m := rest.takeWhile (fun c => !p c)
      if m = [] then []
      else
        let rest2 := rest.dropWhile (fun c => !p c)
        let k' := rest2.takeWhile p
        if k' = [] then [] else (k, m, k') :: ftAux p fuel rest2

/-- All matches of the compiled segmentation regex on `l`. -/
def findTriplets (p : Char → Bool) (l : Str) : List (Str × Str × Str) :=
  ftAux p l.length l

/-- `WordGenerator.split_word`: pad the word with the marker on both sides
and yield `(key, (middle, next_key))` for every regex match.  `vs` is the
vowel set the instance's regex was compiled from (it contains the marker).
Note `Str × Str × Str` is definitionally `Str × (Str × Str)`. -/
def split_word (vs : List Char) (w : Str) : List (Str × Pair) :=
  findTriplets (fun c => c ∈ vs) (marker :: w ++ [marker])

/-! ### Corpus preprocessing -/

/-- `str.strip()`: remove leading and trailing whitespace. -/
def pyTrim (w : Str) : Str :=
  ((w.dropWhile Char.isWhitespace).reverse.dropWhile Char.isWhitespace).reverse

/-- `str.lower()` (ASCII case folding, as in `Char.toLower`). -/
def pyLower (w : Str) : Str := w.map Char.toLower

/-- A self-contained `flatMap` (concatenation of the images, in order). -/
def flatMapL {α β : Type} (f : α → List β) : List α → List β
  | [] => []
  | a :: t => f a ++ flatMapL f t

/-- `(item.strip().lower() for item in language if item)`: empty strings are
filtered on the raw item, then each word is trimmed and lower-cased. -/
def processedWords (language : List Str) : List Str :=
  (language.filter (fun w => w ≠ [])).map (fun w => pyLower (pyTrim w))

/-- The `(key, value)` pairs the seeding loop consumes, in order:
`itertools.chain.from_iterable(split_word(word) for word in ...)`. -/
def allPairs (vs : List Char) (language : List Str) : List (Str × Pair) :=
  flatMapL (split_word vs) (processedWords language)

/-! ### The seeding loop (`WordGenerator.seed`) -/

/-- `self.starts[key] += 1`, on whatever object `starts` currently is:
a `Counter` counts from zero, a plain dict raises `KeyError` on new keys,
a list raises `TypeError` (list indices must be integers), and a missing
attribute raises `AttributeError`. -/
def bumpStarts (k : Str) : Option StartT → Except PyError StartT
  | none => .error .attributeError
  | some (.sctr st) => .ok (.sctr (bumpCtr k st))
  | some (.smap st) => (bumpDict k st).map .smap
  | some (.slist _) => .error .typeError

/-- `self.components[key][value] += 1`, on whatever object `components`
currently is.  A `defaultdict(Counter)` creates the inner counter on
demand; a plain dict of dicts raises `KeyError` for a new key or a new
value pair; a dict of lists raises `TypeError` when indexing the inner
list with a tuple; a missing attribute raises `AttributeError`. -/
def bumpComp (k : Str) (v : Pair) : Option CompT → Except PyError CompT
  | none => .error .attributeError
  | some (.dd cs) => .ok (.dd (setA k (bumpCtr v ((lookupA k cs).getD [])) cs))
  | some (.wd cs) =>
    match lookupA k cs with
    | none => .error .keyError
    | some inner =>
      match lookupA v inner with
      | none => .error .keyError
      | some n => .ok (.wd (setA k (setA v (n + 1) inner) cs))
  | some (.ud cs) =>
    match lookupA k cs with
    | none => .error .keyError
    | some _ => .error .typeError

/-- One iteration of the seeding loop body: bump the start table when the
key begins with the marker, then bump the transition table.  On an
exception the state mutated so far is kept. -/
def seedStep (kv : Str × Pair) (c : Option CompT) (st : Option StartT) :
    (Option CompT × Option StartT) × Option PyError :=
  match (if kv.1.head? = some marker then (bumpStarts kv.1 st).map some else .ok st) with
  | .error e => ((c, st), some e)
  | .ok st' =>
    match bumpComp kv.1 kv.2 c with
    | .error e => ((c, st'), some e)
    | .ok c' => ((some c', st'), none)

/-- The whole seeding loop over the chained `(key, value)` pairs. -/
def seedLoop : List (Str × Pair) → Option CompT → Option StartT →
    (Option CompT × Option StartT) × Option PyError
  | [], c, st => ((c, st), none)
  | kv :: rest, c, st =>
    match seedStep kv c st with
    | (cst, some e) => (cst, some e)
    | ((c', st'), none) => seedLoop rest c' st'

/-- Drop counts: `list(counter.keys())`, per key (insertion order). -/
def stripCounts (cs : CTable) : UTable :=
  cs.map (fun ke => (ke.1, ke.2.map Prod.fst))

/-- The freeze step for `components`:
`{key: dict(value) ...}` (weighted) or `{key: list(value.keys()) ...}`
(unweighted).  Freezing a dict of lists is unreachable from seeded states:
with `weighted` it would build a middle→next dict of strings (`dict` applied
to a list of pairs), which is outside this model and mapped to `TypeError`;
without it, `list.keys()` raises `AttributeError` (as in Python). -/
def freezeComp (weighted : Bool) : Option CompT → Except PyError CompT
  | none => .error .attributeError
  | some (.dd cs) => .ok (if weighted then .wd cs else .ud (stripCounts cs))
  | some (.wd cs) => .ok (if weighted then .wd cs else .ud (stripCounts cs))
  | some (.ud _) => .error (if weighted then .typeError else .attributeError)

/-- The freeze step for `starts`: `dict(self.starts)` (weighted) or
`list(self.starts.keys())` (unweighted).  Freezing a list is unreachable
from seeded states: with `weighted`, `dict` over a list of strings is
outside this model (mapped to `TypeError`); without it, `list.keys()`
raises `AttributeError`. -/
def freezeStarts (weighted : Bool) : Option StartT → Except PyError StartT
  | none => .error .attributeError
  | some (.sctr st) => .ok (if weighted then .smap st else .slist (st.map Prod.fst))
  | some (.smap st) => .ok (if weighted then .smap st else .slist (st.map Prod.fst))
  | some (.slist _) => .error (if weighted then .typeError else .attributeError)

/-- `WordGenerator.seed(language=words, vowels=vowels, append=append)`.
Only the in-memory `language` path is embedded (the `dictionary` path is
file I/O, out of scope).  Returns the updated generator state, the vowel
set after the in-place `vowels.add(MARKER)` mutation (the caller's set
object — `self.vowels` aliases it), and the exception raised, if any.
An empty `language` is falsy, so neither source is accepted and
`ValueError` is raised (after the vowel mutation and the table reset). -/
def seed (words : List Str) (vowels : List Char) (append : Bool) (s : GenState) :
    (GenState × List Char) × Option PyError :=
  let vs := setAdd marker vowels
  let s := { s with vowels := some vs }
  let c0 := if append then s.components else some (.dd [])
  let st0 := if append then s.starts else some (.sctr [])
  let s := { s with components := c0, starts := st0 }
  if words = [] then ((s, vs), some .valueError)
  else
    match seedLoop (allPairs vs words) c0 st0 with
    | ((c1, st1), some e) =>
      (({ s with components := c1, starts := st1 }, vs), some e)
    | ((c1, st1), none) =>
      match freezeComp s.weighted c1 with
      | .error e => (({ s with components := c1, starts := st1 }, vs), some e)
      | .ok c2 =>
        match freezeStarts s.weighted st1 with
        | .error e => (({ s with components := some c2, starts := st1 }, vs), some e)
        | .ok st2 => (({ s with components := some c2, starts := some st2 }, vs), none)

/-- `WordGenerator.__init__(language=..., weighted=..., vowels=...)`:
seeding happens only when the language argument is truthy. -/
def pyInit (language : Option (List Str)) (weighted : Bool) (vowels : List Char) :
    (GenState × List Char) × Option PyError :=
  let s : GenState := { weighted := weighted }
  match language with
  | none => ((s, vowels), none)
  | some ws => if ws = [] then ((s, vowels), none) else seed ws vowels false s

/-! ### Randomness -/

/-- The pseudo-random source, as explicit streams of draws: `us` feeds
`random.uniform(0, max)` (Python guarantees the value lies in `[0, max]`;
the embedding quantifies over arbitrary rationals, a superset), `is` feeds
the index chosen by `random.choice` (taken modulo the sequence length, so
every index in range corresponds to some draw). -/
structure Rand where
  us : List ℚ
  is : List Nat
  deriving DecidableEq, Repr

/-- Pop a uniform draw. -/
def popU (r : Rand) : Except PyError ℚ × Rand :=
  match r.us with
  | [] => (.error .outOfDraws, r)
  | q :: t => (.ok q, { r with us := t })

/-- Pop an index draw. -/
def popI (r : Rand) : Except PyError Nat × Rand :=
  match r.is with
  | [] => (.error .outOfDraws, r)
  | n :: t => (.ok n, { r with is := t })

/-- The walk inside `_weighted_random_choice`: accumulate the running sum
`current` over the entries in stored order and return the first key whose
cumulative sum strictly exceeds the draw (`None` if the walk falls
through, which Python then surfaces as a `TypeError` at the use site). -/
def weightedPickAux {α : Type} (pick : ℚ) (acc : Nat) : List (α × Nat) → Option α
  | [] => none
  | (a, n) :: t => if pick < ((acc + n : Nat) : ℚ) then some a else weightedPickAux pick (acc + n) t

/-- `_weighted_random_choice` walk, starting from a running sum of `0`. -/
def weightedPick {α : Type} (pick : ℚ) (l : List (α × Nat)) : Option α :=
  weightedPickAux pick 0 l

/-- The weighted branch of `_weighted_random_choice`: draw
`random.uniform(0, sum(choices.values()))` and walk the entries.  A
fall-through returns Python's `None`, which the callers immediately use
(`word += current` / tuple unpacking), raising `TypeError`; the embedding
surfaces that `TypeError` here. -/
def sampleW {α : Type} (entries : List (α × Nat)) (r : Rand) : Except PyError α × Rand :=
  match popU r with
  | (.error e, r') => (.error e, r')
  | (.ok q, r') =>
    match weightedPick q entries with
    | none => (.error .typeError, r')
    | some a => (.ok a, r')

/-- `random.choice(seq)` on a list: `IndexError` when empty, otherwise an
arbitrary in-range index (the drawn `Nat` taken modulo the length). -/
def sampleU {α : Type} (l : List α) (r : Rand) : Except PyError α × Rand :=
  match popI r with
  | (.error e, r') => (.error e, r')
  | (.ok n, r') =>
    match l with
    | [] => (.error .indexError, r')
    | a :: t => (.ok ((a :: t).get ⟨n % (a :: t).length, Nat.mod_lt _ (Nat.succ_pos _)⟩), r')

/-- `self._weighted_random_choice(self.starts)`: dispatch on the runtime
shape of `starts` and the `weighted` flag.  `sum(list.values())` raises
`AttributeError`; `random.choice` on a dict/`Counter` indexes it with an
integer, raising `KeyError` (`IndexError` when empty — collapsed to
`KeyError` here; unreachable from consistently-built states). -/
def sampleStarts (weighted : Bool) (st : StartT) (r : Rand) : Except PyError Str × Rand :=
  match weighted, st with
  | true, .sctr l => sampleW l r
  | true, .smap l => sampleW l r
  | true, .slist _ => (.error .attributeError, r)
  | false, .slist l => sampleU l r
  | false, .sctr _ => (.error .keyError, r)
  | false, .smap _ => (.error .keyError, r)

/-- `self._weighted_random_choice(self.components[current])`: the dict
lookup (`KeyError` on a plain dict when absent; a `defaultdict` yields an
empty counter) followed by the same dispatch as `sampleStarts`. -/
def samplePairs (weighted : Bool) (c : CompT) (cur : Str) (r : Rand) :
    Except PyError Pair × Rand :=
  match c with
  | .dd cs =>
    if weighted then sampleW ((lookupA cur cs).getD []) r else (.error .keyError, r)
  | .wd cs =>
    match lookupA cur cs with
    | none => (.error .keyError, r)
    | some entries => if weighted then sampleW entries r else (.error .keyError, r)
  | .ud cs =>
    match lookupA cur cs with
    | none => (.error .keyError, r)
    | some l => if weighted then (.error .attributeError, r) else sampleU l r

/-! ### Word generation (`_generate_word`) -/

/-- `str.strip(MARKER)`: remove all leading and trailing markers. -/
def pyStrip (l : Str) : Str :=
  ((l.dropWhile (· = marker)).reverse.dropWhile (· = marker)).reverse

/-- Truthiness of the `components` attribute (`if not self.components`). -/
def compEmpty : CompT → Bool
  | .dd cs => cs.isEmpty
  | .wd cs => cs.isEmpty
  | .ud cs => cs.isEmpty

/-- The `while True` loop of `_generate_word`, with explicit fuel:
append the current key to the word; stop when the current key ends with
the marker and the word is not the bare marker; otherwise sample
`(next, current)` from the current key's transitions and append `next`. -/
def genLoop (weighted : Bool) (c : CompT) : Nat → Str → Str → Rand →
    Except PyError Str × Rand
  | 0, _, _, r => (.error .outOfFuel, r)
  | fuel + 1, word, cur, r =>
    let word := word ++ cur
    if cur.getLast? = some marker ∧ word ≠ [marker] then (.ok word, r)
    else
      match samplePairs weighted c cur r with
      | (.error e, r') => (.error e, r')
      | (.ok (m, k'), r') => genLoop weighted c fuel (word ++ m) k' r'

/-- `WordGenerator._generate_word`: fail on an empty (or missing)
transition table before any random draw, sample a start key, run the
loop, and strip the markers from both ends of the result. -/
def generateWordRaw (s : GenState) (fuel : Nat) (r : Rand) : Except PyError Str × Rand :=
  match s.components with
  | none => (.error .attributeError, r)
  | some c =>
    if compEmpty c then (.error .emptyDictionaryError, r)
    else
      match s.starts with
      | none => (.error .attributeError, r)
      | some st =>
        match sampleStarts s.weighted st r with
        | (.error e, r') => (.error e, r')
        | (.ok k0, r') =>
          match genLoop s.weighted c fuel [] k0 r' with
          | (.error e, r'') => (.error e, r'')
          | (.ok w, r'') => (.ok (pyStrip w), r'')

/-! ### Length limits (`generate` / `generate_word`) -/

/-- The `limit` argument of `generate`: Python's `None`, a bare maximum,
or a `(minimum, maximum)` tuple. -/
inductive PyLimit where
  | noLimit
  | max (m : Int)
  | pair (lo hi : Int)
  deriving DecidableEq, Repr

/-- `try: minimum, maximum = limit except TypeError: minimum = 0;
maximum = limit`.  The second component is Python's `maximum`, which is
`None` exactly when `limit` is `None`. -/
def normLimit : PyLimit → Int × Option Int
  | .noLimit => (0, none)
  | .max m => (0, some m)
  | .pair lo hi => (lo, some hi)

/-- The filter `minimum < len(item) < maximum`.  Python short-circuits:
when `minimum < len(item)` fails the item is skipped silently; otherwise
`len(item) < maximum` is evaluated, raising `TypeError` when `maximum` is
`None`. -/
def lenFilter (lo : Int) (hi : Option Int) (w : Str) : Except PyError Bool :=
  if lo < (w.length : Int) then
    match hi with
    | none => .error .typeError
    | some m => .ok ((w.length : Int) < m)
  else .ok false

/-- Pulling the next word out of
`(item for item in self if minimum < len(item) < maximum)`: generate words
until one passes the filter (fuel bounds the number of attempts and the
inner walk). -/
def nextWordAux (s : GenState) (lo : Int) (hi : Option Int) :
    Nat → Rand → Except PyError Str × Rand
  | 0, r => (.error .outOfFuel, r)
  | fuel + 1, r =>
    match generateWordRaw s (fuel + 1) r with
    | (.error e, r') => (.error e, r')
    | (.ok w, r') =>
      match lenFilter lo hi w with
      | .error e => (.error e, r')
      | .ok true => (.ok w, r')
      | .ok false => nextWordAux s lo hi fuel r'

/-- `WordGenerator.generate_word(limit)` = `next(self.generate(limit))`. -/
def generate_word (s : GenState) (limit : PyLimit) (fuel : Nat) (r : Rand) :
    Except PyError Str × Rand :=
  nextWordAux s (normLimit limit).1 (normLimit limit).2 fuel r

/-! ### The model codec (`save` / `load`) -/

/-- The JSON documents `json.dump`/`json.load` exchange. -/
inductive J where
  | b (x : Bool)
  | n (x : Int)
  | str (x : String)
  | arr (xs : List J)
  | obj (fields : List (String × J))
  | null

/-- Entry list of one key, as serialised: `list(values.items())`, each
item `[[middle, next], count]` once tuples pass through JSON. -/
def encEntries (e : Entries) : J :=
  .arr (e.map (fun pe => .arr [.arr [.str ⟨pe.1.1⟩, .str ⟨pe.1.2⟩], .n pe.2]))

/-- `{key: list(values.items()) for key, values in self.components.items()}`. -/
def encComponents (cs : CTable) : J :=
  .obj (cs.map (fun ke => (⟨ke.1⟩, encEntries ke.2)))

/-- `self.starts` as `json.dump` serialises it (a dict becomes an object,
a list becomes an array). -/
def encStarts : StartT → J
  | .sctr st => .obj (st.map (fun kn => (⟨kn.1⟩, .n kn.2)))
  | .smap st => .obj (st.map (fun kn => (⟨kn.1⟩, .n kn.2)))
  | .slist l => .arr (l.map (fun k => .str ⟨k⟩))

/-- `WordGenerator.save`: `values.items()` raises `AttributeError` on the
lists of an unweighted model (unless the table is empty, when the
comprehension never touches a value); a missing attribute also raises
`AttributeError`. -/
def save (s : GenState) : Except PyError J :=
  match s.components with
  | none => .error .attributeError
  | some (.dd cs) | some (.wd cs) =>
    match s.starts with
    | none => .error .attributeError
    | some st =>
      .ok (.obj [("weighted", .b s.weighted), ("starts", encStarts st),
                 ("components", encComponents cs)])
  | some (.ud cs) =>
    if cs.isEmpty then
      match s.starts with
      | none => .error .attributeError
      | some st =>
        .ok (.obj [("weighted", .b s.weighted), ("starts", encStarts st),
                   ("components", encComponents [])])
    else .error .attributeError

/-- `doc[key]`: `KeyError` when the object lacks the field, `TypeError`
when the document is not an object (not subscriptable by a string). -/
def getField (doc : J) (k : String) : Except PyError J :=
  match doc with
  | .obj fs =>
    match lookupA k fs with
    | some v => .ok v
    | none => .error .keyError
  | _ => .error .typeError

/-- `tuple(value)` for a serialised value pair.  The encoder only ever
emits `[middle, next]` with two strings; other shapes fall outside the
typed model and are mapped to `TypeError`. -/
def parsePair : J → Except PyError Pair
  | .arr [.str m, .str n] => .ok (m.data, n.data)
  | _ => .error .typeError

/-- One `[value, count]` entry (`for value, count in values`); negative or
non-integer counts never come from the encoder and are mapped to
`TypeError`. -/
def parseEntry : J → Except PyError (Pair × Nat)
  | .arr [v, .n c] =>
    match parsePair v with
    | .error e => .error e
    | .ok p => if c < 0 then .error .typeError else .ok (p, c.toNat)
  | _ => .error .typeError

/-- Parse the list of entries of one key. -/
def parseEntryList : List J → Except PyError Entries
  | [] => .ok []
  | j :: t =>
    match parseEntry j with
    | .error e => .error e
    | .ok pe =>
      match parseEntryList t with
      | .error e => .error e
      | .ok rest => .ok (pe :: rest)

/-- The fields of the serialised components object, rebuilt:
`{key: {tuple(value): count for value, count in values} ...}`. -/
def parseCFields : List (String × J) → Except PyError CTable
  | [] => .ok []
  | (k, .arr es) :: t =>
    match parseEntryList es with
    | .error e => .error e
    | .ok entries =>
      match parseCFields t with
      | .error e => .error e
      | .ok rest => .ok ((k.data, entries) :: rest)
  | (_, _) :: _ => .error .typeError

/-- `serialised["components"].items()` and the rebuild comprehension:
`.items()` on a non-dict raises `AttributeError`. -/
def parseComponents : J → Except PyError CTable
  | .obj fs => parseCFields fs
  | _ => .error .attributeError

/-- The whole right-hand side of the `self.components = ...` assignment in
`load` (fully evaluated before the attribute is assigned). -/
def decodeComponents (doc : J) : Except PyError CTable :=
  match getField doc "components" with
  | .error e => .error e
  | .ok cJ => parseComponents cJ

/-- `self.starts = serialised["starts"]`: the raw parsed value is stored
without validation.  A JSON object of counts becomes a dict, an array of
strings becomes a list; other shapes (which Python would store as-is and
only trip over later, at generation time) fall outside the typed model
and are mapped to `TypeError`. -/
def parseStarts : J → Except PyError StartT
  | .obj fs =>
    match parseStartCounts fs with
    | .error e => .error e
    | .ok st => .ok (.smap st)
  | .arr xs =>
    match parseStartKeys xs with
    | .error e => .error e
    | .ok l => .ok (.slist l)
  | _ => .error .typeError
where
  parseStartCounts : List (String × J) → Except PyError (List (Str × Nat))
    | [] => .ok []
    | (k, .n c) :: t =>
      if c < 0 then .error .typeError
      else
        match parseStartCounts t with
        | .error e => .error e
        | .ok rest => .ok ((k.data, c.toNat) :: rest)
    | (_, _) :: _ => .error .typeError
  parseStartKeys : List J → Except PyError (List Str)
    | [] => .ok []
    | .str k :: t =>
      match parseStartKeys t with
      | .error e => .error e
      | .ok rest => .ok (k.data :: rest)
    | _ :: _ => .error .typeError

/-- `self.weighted = serialised["weighted"]`: stored raw; non-boolean
values never come from the encoder and are mapped to `TypeError`. -/
def parseWeighted : J → Except PyError Bool
  | .b x => .ok x
  | _ => .error .typeError

/-- `WordGenerator.load`: three sequential attribute assignments.  Each
right-hand side is evaluated in full before its assignment, so a failure
in a later step keeps the earlier assignments (the state returned
alongside the error is the partially updated one, as in Python). -/
def load (doc : J) (s : GenState) : GenState × Option PyError :=
  match decodeComponents doc with
  | .error e => (s, some e)
  | .ok cs =>
    let s := { s with components := some (.wd cs) }
    match getField doc "starts" with
    | .error e => (s, some e)
    | .ok stJ =>
      match parseStarts stJ with
      | .error e => (s, some e)
      | .ok st =>
        let s := { s with starts := some st }
        match getField doc "weighted" with
        | .error e => (s, some e)
        | .ok wJ =>
          match parseWeighted wJ with
          | .error e => (s, some e)
          | .ok w => ({ s with weighted := w }, none)

/-! ### Basic helper lemmas -/

theorem mem_setAdd_self (c : Char) (l : List Char) : c ∈ setAdd c l := by
  unfold setAdd; split
  · assumption
  · simp

theorem mem_flatMapL {α β : Type} (f : α → List β) (l : List α) (b : β) :
    b ∈ flatMapL f l ↔ ∃ a ∈ l, b ∈ f a := by
  induction l with
  | nil => simp [flatMapL]
  | cons a t ih => simp [flatMapL, ih]

theorem lookupA_mem {κ β : Type} [DecidableEq κ] {k : κ} {b : β} :
    ∀ {l : List (κ × β)}, lookupA k l = some b → (k, b) ∈ l := by
  intro l
  induction l with
  | nil => intro h; simp [lookupA] at h
  | cons p t ih =>
    intro h
    rw [lookupA] at h
    split at h
    · rename_i heq
      cases p
      simp_all
    · exact List.mem_cons_of_mem _ (ih h)

theorem mem_setA {κ β : Type} [DecidableEq κ] {k : κ} {b : β} {q : κ × β} :
    ∀ {l : List (κ × β)}, q ∈ setA k b l → q ∈ l ∨ q = (k, b) := by
  intro l
  induction l with
  | nil => intro h; simp [setA] at h; simp [h]
  | cons p t ih =>
    intro h
    rw [setA] at h
    split at h
    · rcases List.mem_cons.mp h with h | h
      · right; rename_i heq; cases p; simp_all
      · left; exact List.mem_cons_of_mem _ h
    · rcases List.mem_cons.mp h with h | h
      · left; simp [h]
      · rcases ih h with h | h
        · left; exact List.mem_cons_of_mem _ h
        · right; exact h

theorem mem_setA_fst {κ β : Type} [DecidableEq κ] {k : κ} {b : β} {x : κ} :
    ∀ {l : List (κ × β)}, x ∈ (setA k b l).map Prod.fst → x ∈ l.map Prod.fst ∨ x = k := by
  intro l h
  simp only [List.mem_map] at h
  obtain ⟨q, hq, hx⟩ := h
  rcases mem_setA hq with h | h
  · left; exact List.mem_map.mpr ⟨q, h, hx⟩
  · right; rw [h] at hx; simpa using hx.symm

theorem mem_bumpCtr_fst {κ : Type} [DecidableEq κ] {k : κ} {x : κ} :
    ∀ {l : List (κ × Nat)}, x ∈ (bumpCtr k l).map Prod.fst → x ∈ l.map Prod.fst ∨ x = k := by
  intro l
  induction l with
  | nil => intro h; simp [bumpCtr] at h; simp [h]
  | cons p t ih =>
    intro h
    rw [bumpCtr] at h
    split at h
    · rcases List.mem_map.mp h with ⟨q, hq, hx⟩
      rcases List.mem_cons.mp hq with h' | h'
      · right; rename_i heq; cases p; subst h'; simp_all
      · left; exact List.mem_map.mpr ⟨q, List.mem_cons_of_mem _ h', hx⟩
    · rcases List.mem_map.mp h with ⟨q, hq, hx⟩
      rcases List.mem_cons.mp hq with h' | h'
      · left; exact List.mem_map.mpr ⟨q, by simp [h'], hx⟩
      · rcases ih (List.mem_map.mpr ⟨q, h', hx⟩) with h'' | h''
        · left; simpa [List.mem_map] using Or.inr (List.mem_map.mp h'')
        · right; exact h''

theorem length_dropWhile_le {α : Type} (p : α → Bool) (l : List α) :
    (l.dropWhile p).length ≤ l.length := by
  induction l with
  | nil => simp [List.dropWhile]
  | cons a t ih =>
    rw [List.dropWhile_cons]
    split
    · exact Nat.le_trans ih (Nat.le_succ _)
    · simp

theorem dropWhile_head_not {α : Type} (p : α → Bool) :
    ∀ (l : List α) {c t}, l.dropWhile p = c :: t → p c = false := by
  intro l
  induction l with
  | nil => intro c t h; simp [List.dropWhile] at h
  | cons a t' ih =>
    intro c t h
    rw [List.dropWhile_cons] at h
    split at h
    · exact ih h
    · cases h; simp_all

theorem takeWhile_all {α : Type} (p : α → Bool) :
    ∀ {l : List α}, (∀ c ∈ l, p c) → l.takeWhile p = l := by
  intro l
  induction l with
  | nil => intro _; rfl
  | cons a t ih =>
    intro h
    rw [List.takeWhile_cons]
    have := h a (by simp)
    simp only [this, if_true]
    rw [ih (fun c hc => h c (List.mem_cons_of_mem _ hc))]

theorem dropWhile_all {α : Type} (p : α → Bool) :
    ∀ {l : List α}, (∀ c ∈ l, p c) → l.dropWhile p = [] := by
  intro l
  induction l with
  | nil => intro _; rfl
  | cons a t ih =>
    intro h
    rw [List.dropWhile_cons]
    have := h a (by simp)
    simp only [this, if_true]
    exact ih (fun c hc => h c (List.mem_cons_of_mem _ hc))

/-- A key structural fact about marker placement: when a marker-free word
is padded with a single trailing marker, anything of the form
`xs ++ marker :: ys` equal to it forces the shown marker to be that final
marker. -/
theorem append_marker_eq {w : Str} (hw : marker ∉ w) :
    ∀ {xs ys : Str}, xs ++ marker :: ys = w ++ [marker] → xs = w ∧ ys = [] := by
  induction w with
  | nil =>
    intro xs ys h
    cases xs with
    | nil => simpa using h
    | cons a xt =>
      have hlen := congrArg List.length h
      simp only [List.cons_append, List.length_cons, List.length_append,
        List.nil_append, List.length_nil] at hlen
      omega
  | cons c w' ih =>
    intro xs ys h
    have hw' : marker ∉ w' := fun hmem => hw (List.mem_cons_of_mem _ hmem)
    cases xs with
    | nil =>
      simp only [List.nil_append, List.cons_append] at h
      have hc : marker = c := by
        have := congrArg List.head? h; simpa using this
      exact absurd (hc ▸ List.mem_cons_self c w') hw
    | cons a xt =>
      simp only [List.cons_append] at h
      have h1 : a = c := by have := congrArg List.head? h; simpa using this
      have h2 : xt ++ marker :: ys = w' ++ [marker] := by
        have := congrArg List.tail h; simpa using this
      obtain ⟨hxt, hys⟩ := ih hw' h2
      exact ⟨by rw [h1, hxt], hys⟩

/-! ### Structure of the regex matches -/

/-- Every triplet produced by the scanner consists of non-empty runs of
the right character classes, appearing contiguously (in order) inside the
scanned string. -/
theorem ftAux_ctx (p : Char → Bool) :
    ∀ (fuel : Nat) (l k m k' : Str), (k, m, k') ∈ ftAux p fuel l →
    (∃ pre post, l = pre ++ k ++ m ++ k' ++ post) ∧
    k ≠ [] ∧ m ≠ [] ∧ k' ≠ [] ∧
    (∀ c ∈ k, p c) ∧ (∀ c ∈ m, p c = false) ∧ (∀ c ∈ k', p c) := by
  intro fuel
  induction fuel with
  | zero => intro l k m k' h; simp [ftAux] at h
  | succ f ih =>
    intro l k m k' h
    rw [ftAux.eq_def] at h
    dsimp only at h
    by_cases hk : l.takeWhile p = []
    · simp only [hk, if_true] at h
      cases l with
      | nil => simp at h
      | cons a t =>
        have := ih _ k m k' h
        obtain ⟨⟨pre, post, heq⟩, rest⟩ := this
        refine ⟨⟨(a :: t).takeWhile (fun c => !p c) ++ pre, post, ?_⟩, rest⟩
        conv_lhs => rw [← List.takeWhile_append_dropWhile (p := fun c => !p c) (l := a :: t)]
        rw [heq]; simp
    · simp only [hk, if_false] at h
      by_cases hm : (l.dropWhile p).takeWhile (fun c => !p c) = []
      · simp only [hm, if_true] at h; simp at h
      · simp only [hm, if_false] at h
        by_cases hk' : ((l.dropWhile p).dropWhile (fun c => !p c)).takeWhile p = []
        · simp only [hk', if_true] at h; simp at h
        · simp only [hk', if_false] at h
          have hdecl : l = l.takeWhile p ++ ((l.dropWhile p).takeWhile (fun c => !p c) ++
              ((l.dropWhile p).dropWhile (fun c => !p c))) := by
            rw [List.takeWhile_append_dropWhile, List.takeWhile_append_dropWhile]
          rcases List.mem_cons.mp h with h | h
          · simp only [Prod.mk.injEq] at h
            obtain ⟨h1, h2, h3⟩ := h
            subst h1; subst h2; subst h3
            refine ⟨⟨[], ((l.dropWhile p).dropWhile (fun c => !p c)).dropWhile p, ?_⟩,
              hk, hm, hk', ?_, ?_, ?_⟩
            · conv_lhs => rw [hdecl]
              conv_lhs =>
                rw [← List.takeWhile_append_dropWhile (p := p)
                  (l := (l.dropWhile p).dropWhile (fun c => !p c))]
              simp
            · exact fun c hc => List.mem_takeWhile_imp hc
            · intro c hc
              have := List.mem_takeWhile_imp hc
              simpa using this
            · exact fun c hc => List.mem_takeWhile_imp hc
          · have := ih _ k m k' h
            obtain ⟨⟨pre, post, heq⟩, rest⟩ := this
            refine ⟨⟨l.takeWhile p ++ (l.dropWhile p).takeWhile (fun c => !p c) ++ pre,
              post, ?_⟩, rest⟩
            conv_lhs => rw [hdecl]
            rw [heq]; simp

/-- An all-vowel string produces no match (the regex needs a non-empty
non-vowel run). -/
theorem ftAux_allP (p : Char → Bool) :
    ∀ (fuel : Nat) (l : Str), (∀ c ∈ l, p c) → ftAux p fuel l = [] := by
  intro fuel
  cases fuel with
  | zero => intro l _; rfl
  | succ f =>
    intro l h
    rw [ftAux.eq_def]
    dsimp only
    cases l with
    | nil => simp
    | cons a t =>
      have hk : (a :: t).takeWhile p = a :: t := takeWhile_all p h
      have hne : (a :: t).takeWhile p ≠ [] := by rw [hk]; simp
      simp only [hne, if_false]
      have hd : (a :: t).dropWhile p = [] := dropWhile_all p h
      rw [hd]
      simp [List.takeWhile]

/-! ### Shape invariants for seeded models -/

/-- A next-key segment is non-empty and contains the marker at most as its
final character. -/
def goodNext (k : Str) : Prop := k ≠ [] ∧ marker ∉ k.dropLast

/-- A transition-table value pair: non-empty marker-free middle, and a
well-shaped next key. -/
def goodPair (pr : Pair) : Prop := pr.1 ≠ [] ∧ marker ∉ pr.1 ∧ goodNext pr.2

/-- A start-table key: begins with the marker and contains no other
marker. -/
def goodStart (k : Str) : Prop := k.head? = some marker ∧ marker ∉ k.tail

/-- What the segmenter guarantees for each `(key, value)` pair of a
marker-free word. -/
def goodKV (kv : Str × Pair) : Prop :=
  kv.1 ≠ [] ∧ (kv.1.head? = some marker → marker ∉ kv.1.tail) ∧ goodPair kv.2

instance : DecidablePred goodNext := fun _ => by unfold goodNext; infer_instance
instance : DecidablePred goodPair := fun _ => by unfold goodPair; infer_instance
instance : DecidablePred goodStart := fun _ => by unfold goodStart; infer_instance
instance : DecidablePred goodKV := fun _ => by unfold goodKV; infer_instance

/-- In the marker-padded form of a marker-free word, any displayed marker
with non-empty material in front of it must be the final padding marker,
so nothing follows it. -/
theorem padded_marker_split {w : Str} (hw : marker ∉ w) {F G : Str}
    (h : marker :: w ++ [marker] = F ++ marker :: G) (hF : F ≠ []) : G = [] := by
  cases F with
  | nil => exact absurd rfl hF
  | cons fhd ftl =>
    have hfhd : marker = fhd := by
      have := congrArg List.head? h; simpa using this
    have htl := congrArg List.tail h
    simp only [List.cons_append, List.tail_cons] at htl
    exact (append_marker_eq hw htl.symm).2

/-- Every `(key, (middle, next))` pair that `split_word` yields for a
marker-free word is well shaped: the key carries a marker only as a
leading marker, the middle is non-empty and marker-free, and the next key
carries a marker only as its final character. -/
theorem split_word_good {vs : List Char} (hm : marker ∈ vs) {w : Str} (hw : marker ∉ w)
    {kv : Str × Pair} (h : kv ∈ split_word vs w) : goodKV kv := by
  obtain ⟨k, mv, k'⟩ := kv
  have hctx := ftAux_ctx (fun c => c ∈ vs) (marker :: w ++ [marker]).length
    (marker :: w ++ [marker]) k mv k' h
  obtain ⟨⟨pre, post, heq⟩, hk, hmne, hk'ne, hkcl, hmcl, hk'cl⟩ := hctx
  have hmmv : marker ∉ mv := by
    intro hin
    have := hmcl marker hin
    simp [hm] at this
  refine ⟨hk, ?_, hmne, hmmv, hk'ne, ?_⟩
  · -- the key contains a marker only as its head
    intro hh hmem
    obtain ⟨khd, ktl, rfl⟩ := List.exists_cons_of_ne_nil hk
    have hkhd : khd = marker := by simpa using hh
    subst hkhd
    simp only [List.tail_cons] at hmem
    obtain ⟨a, b, hktl⟩ := List.append_of_mem hmem
    subst hktl
    have h2 : marker :: w ++ [marker] =
        (pre ++ marker :: a) ++ marker :: (b ++ (mv ++ (k' ++ post))) := by
      rw [heq]; simp [List.append_assoc]
    have hnil := padded_marker_split hw h2 (by simp)
    simp only [List.append_eq_nil] at hnil
    exact hmne hnil.2.1
  · -- the next key contains a marker only as its final character
    intro hmem
    obtain ⟨a, b, hdrop⟩ := List.append_of_mem hmem
    obtain ⟨c, hc⟩ : ∃ c, k' = a ++ marker :: b ++ [c] := by
      refine ⟨k'.getLast hk'ne, ?_⟩
      conv_lhs => rw [← List.dropLast_append_getLast hk'ne]
      rw [hdrop]
    rw [hc] at heq
    have h2 : marker :: w ++ [marker] =
        (pre ++ (k ++ (mv ++ a))) ++ marker :: (b ++ ([c] ++ post)) := by
      rw [heq]; simp [List.append_assoc]
    have hnil := padded_marker_split hw h2 (by
      intro hF
      simp only [List.append_eq_nil] at hF
      exact hk hF.2.1)
    simp [List.append_eq_nil] at hnil

/-! ### Invariants of the tables and their preservation -/

/-- All value pairs stored anywhere in a `components` object. -/
def compPairs : CompT → List Pair
  | .dd cs => flatMapL (fun ke => ke.2.map Prod.fst) cs
  | .wd cs => flatMapL (fun ke => ke.2.map Prod.fst) cs
  | .ud cs => flatMapL Prod.snd cs

/-- All keys stored in a `starts` object. -/
def startKeys : StartT → List Str
  | .sctr st => st.map Prod.fst
  | .smap st => st.map Prod.fst
  | .slist l => l

/-- Every value pair of the transition table is well shaped. -/
def InvC (c : CompT) : Prop := ∀ pr ∈ compPairs c, goodPair pr

/-- Every key of the start table is well shaped. -/
def InvS (st : StartT) : Prop := ∀ k ∈ startKeys st, goodStart k

instance : DecidablePred InvC := fun c => List.decidableBAll _ (compPairs c)

instance : DecidablePred InvS := fun st => List.decidableBAll _ (startKeys st)

/-- `bumpStarts` only ever adds the bumped key. -/
theorem bumpStarts_keys {k : Str} {st : Option StartT} {st' : StartT}
    (h : bumpStarts k st = .ok st') :
    ∀ x ∈ startKeys st', (∃ s, st = some s ∧ x ∈ startKeys s) ∨ x = k := by
  intro x hx
  match st, h with
  | some (.sctr l), h =>
    cases h' : bumpStarts k (some (.sctr l)) with
    | error e => rw [h'] at h; cases h
    | ok v =>
      rw [h'] at h
      cases h
      simp only [bumpStarts, Except.ok.injEq] at h'
      rw [← h'] at hx
      rcases mem_bumpCtr_fst hx with h'' | h''
      · exact Or.inl ⟨_, rfl, h''⟩
      · exact Or.inr h''
  | some (.smap l), h =>
    simp only [bumpStarts, bumpDict] at h
    cases hl : lookupA k l with
    | none => rw [hl] at h; cases h
    | some n =>
      rw [hl] at h
      simp only [Except.map, Except.ok.injEq] at h
      cases h
      rcases mem_setA_fst hx with h'' | h''
      · exact Or.inl ⟨_, rfl, h''⟩
      · exact Or.inr h''

/-- `bumpComp` only ever adds the bumped value pair. -/
theorem bumpComp_pairs {k : Str} {v : Pair} {c : Option CompT} {c' : CompT}
    (h : bumpComp k v c = .ok c') :
    ∀ pr ∈ compPairs c', (∃ x, c = some x ∧ pr ∈ compPairs x) ∨ pr = v := by
  intro pr hpr
  match c, h with
  | some (.dd cs), h =>
    simp only [bumpComp, Except.ok.injEq] at h
    subst h
    simp only [compPairs] at hpr
    rw [mem_flatMapL] at hpr
    obtain ⟨ke, hke, hin⟩ := hpr
    rcases mem_setA hke with hke | hke
    · exact Or.inl ⟨_, rfl, by
        simp only [compPairs]; rw [mem_flatMapL]; exact ⟨ke, hke, hin⟩⟩
    · subst hke
      simp only at hin
      rcases mem_bumpCtr_fst hin with hin | hin
      · cases hl : lookupA k cs with
        | none => rw [hl] at hin; simp at hin
        | some inner =>
          rw [hl] at hin
          exact Or.inl ⟨_, rfl, by
            simp only [compPairs]; rw [mem_flatMapL]
            exact ⟨(k, inner), lookupA_mem hl, hin⟩⟩
      · exact Or.inr hin
  | some (.wd cs), h =>
    simp only [bumpComp] at h
    split at h
    · cases h
    · rename_i inner hl
      split at h
      · cases h
      · rename_i n hl2
        simp only [Except.ok.injEq] at h
        subst h
        simp only [compPairs] at hpr
        rw [mem_flatMapL] at hpr
        obtain ⟨ke, hke, hin⟩ := hpr
        rcases mem_setA hke with hke | hke
        · exact Or.inl ⟨_, rfl, by
            simp only [compPairs]; rw [mem_flatMapL]; exact ⟨ke, hke, hin⟩⟩
        · subst hke
          simp only at hin
          rcases mem_setA_fst hin with hin | hin
          · exact Or.inl ⟨_, rfl, by
              simp only [compPairs]; rw [mem_flatMapL]
              exact ⟨(k, inner), lookupA_mem hl, hin⟩⟩
          · exact Or.inr hin
  | some (.ud cs), h =>
    simp only [bumpComp] at h
    split at h
    · cases h
    · cases h

/-- The seeding loop preserves the table invariants when every consumed
pair is well shaped (also in the partially mutated state it returns on an
exception). -/
theorem seedLoop_inv :
    ∀ (pairs : List (Str × Pair)) (c : Option CompT) (st : Option StartT),
    (∀ kv ∈ pairs, goodKV kv) →
    (∀ x, c = some x → InvC x) → (∀ s, st = some s → InvS s) →
    (∀ x, (seedLoop pairs c st).1.1 = some x → InvC x) ∧
    (∀ s, (seedLoop pairs c st).1.2 = some s → InvS s) := by
  intro pairs
  induction pairs with
  | nil => intro c st _ hc hs; exact ⟨hc, hs⟩
  | cons kv rest ih =>
    intro c st hgood hc hs
    have hkv := hgood kv (by simp)
    obtain ⟨hkne, hkhead, hkvpair⟩ := hkv
    -- the starts bump
    have hstep : ∀ st', (if kv.1.head? = some marker
        then (bumpStarts kv.1 st).map some else .ok st) = .ok st' →
        (∀ s, st' = some s → InvS s) := by
      intro st' h' s hs'
      split at h'
      · rename_i hcond
        cases hb : bumpStarts kv.1 st with
        | error e => rw [hb] at h'; cases h'
        | ok v =>
          rw [hb] at h'
          simp only [Except.map, Except.ok.injEq] at h'
          rw [← h'] at hs'
          cases hs'
          intro x hx
          rcases bumpStarts_keys hb x hx with ⟨s0, hs0, hx0⟩ | hx0
          · exact hs s0 hs0 x hx0
          · subst hx0
            exact ⟨hcond, hkhead hcond⟩
      · cases h'
        exact hs s hs'
    rw [seedLoop]
    cases hss : seedStep kv c st with
    | mk cst err =>
      obtain ⟨c1, st1⟩ := cst
      unfold seedStep at hss
      cases hb : (if kv.1.head? = some marker
          then (bumpStarts kv.1 st).map some else .ok st) with
      | error e =>
        rw [hb] at hss
        simp only [Prod.mk.injEq] at hss
        obtain ⟨⟨hc1, hst1⟩, herr⟩ := hss
        subst hc1; subst hst1
        cases err with
        | none => cases herr
        | some e' => exact ⟨hc, hs⟩
      | ok st' =>
        rw [hb] at hss
        have hst' := hstep st' hb
        cases hbc : bumpComp kv.1 kv.2 c with
        | error e =>
          rw [hbc] at hss
          simp only [Prod.mk.injEq] at hss
          obtain ⟨⟨hc1, hst1⟩, herr⟩ := hss
          subst hc1; subst hst1
          cases err with
          | none => cases herr
          | some e' => exact ⟨hc, hst'⟩
        | ok c' =>
          rw [hbc] at hss
          simp only [Prod.mk.injEq] at hss
          obtain ⟨⟨hc1, hst1⟩, herr⟩ := hss
          subst hc1; subst hst1
          cases err with
          | some e' => cases herr
          | none =>
            have hc' : ∀ x, some c' = some x → InvC x := by
              intro x hx
              cases hx
              intro pr hpr
              rcases bumpComp_pairs hbc pr hpr with ⟨x0, hx0, hpr0⟩ | hpr0
              · exact hc x0 hx0 pr hpr0
              · subst hpr0; exact hkvpair
            exact ih (some c') st' (fun kv' hkv' => hgood kv' (by simp [hkv'])) hc' hst'

/-- Stripping counts preserves the stored value pairs. -/
theorem compPairs_strip (cs : CTable) :
    compPairs (.ud (stripCounts cs)) = compPairs (.dd cs) := by
  induction cs with
  | nil => rfl
  | cons ke t ih =>
    simp only [compPairs, stripCounts, List.map_cons, flatMapL] at *
    rw [ih]

/-- Freezing preserves the transition-table invariant. -/
theorem freezeComp_inv {w : Bool} {co : Option CompT} {c' : CompT}
    (h : freezeComp w co = .ok c') (hc : ∀ x, co = some x → InvC x) : InvC c' := by
  match co, h with
  | some (.dd cs), h =>
    simp only [freezeComp, Except.ok.injEq] at h
    subst h
    have hinv := hc (.dd cs) rfl
    cases w with
    | true => simpa only [if_true] using hinv
    | false =>
      simp only [Bool.false_eq_true, if_false]
      intro pr hpr
      rw [compPairs_strip] at hpr
      exact hinv pr hpr
  | some (.wd cs), h =>
    simp only [freezeComp, Except.ok.injEq] at h
    subst h
    have hinv := hc (.wd cs) rfl
    cases w with
    | true => simpa only [if_true] using hinv
    | false =>
      simp only [Bool.false_eq_true, if_false]
      intro pr hpr
      rw [compPairs_strip] at hpr
      exact hinv pr hpr

/-- Freezing preserves the start-table invariant. -/
theorem freezeStarts_inv {w : Bool} {so : Option StartT} {st' : StartT}
    (h : freezeStarts w so = .ok st') (hs : ∀ s, so = some s → InvS s) : InvS st' := by
  match so, h with
  | some (.sctr st), h =>
    simp only [freezeStarts, Except.ok.injEq] at h
    subst h
    have hinv := hs (.sctr st) rfl
    cases w with
    | true => exact fun k hk => hinv k hk
    | false => exact fun k hk => hinv k hk
  | some (.smap st), h =>
    simp only [freezeStarts, Except.ok.injEq] at h
    subst h
    have hinv := hs (.smap st) rfl
    cases w with
    | true => exact fun k hk => hinv k hk
    | false => exact fun k hk => hinv k hk

/-- A fresh (non-append) seed only ever installs well-shaped tables, as
long as the processed corpus contains no marker characters. -/
theorem seed_fresh_inv (words : List Str) (vowels : List Char) (s0 : GenState)
    (hw : ∀ w ∈ processedWords words, marker ∉ w) :
    (∀ x, ((seed words vowels false s0).1.1).components = some x → InvC x) ∧
    (∀ s, ((seed words vowels false s0).1.1).starts = some s → InvS s) := by
  have hgood : ∀ kv ∈ allPairs (setAdd marker vowels) words, goodKV kv := by
    intro kv hkv
    rw [allPairs, mem_flatMapL] at hkv
    obtain ⟨w', hw', hkv⟩ := hkv
    exact split_word_good (mem_setAdd_self _ _) (hw w' hw') hkv
  have hbase_c : ∀ x, (some (CompT.dd []) : Option CompT) = some x → InvC x := by
    intro x hx
    cases hx
    intro pr hpr
    simp [compPairs, flatMapL] at hpr
  have hbase_s : ∀ s, (some (StartT.sctr []) : Option StartT) = some s → InvS s := by
    intro s hs
    cases hs
    intro k hk
    simp [startKeys] at hk
  have hloop := seedLoop_inv (allPairs (setAdd marker vowels) words)
    (some (.dd [])) (some (.sctr [])) hgood hbase_c hbase_s
  rw [seed]
  dsimp only
  by_cases hwe : words = []
  · simp only [hwe, if_true]
    exact ⟨hbase_c, hbase_s⟩
  · simp only [hwe, if_false]
    rw [show (if false = true then s0.components else some (CompT.dd [])) =
        some (CompT.dd []) from rfl,
      show (if false = true then s0.starts else some (StartT.sctr [])) =
        some (StartT.sctr []) from rfl]
    cases hsl : seedLoop (allPairs (setAdd marker vowels) words)
        (some (.dd [])) (some (.sctr [])) with
    | mk cst err =>
      obtain ⟨c1, st1⟩ := cst
      rw [hsl] at hloop
      cases err with
      | some e => dsimp only; exact ⟨hloop.1, hloop.2⟩
      | none =>
        dsimp only
        cases hf : freezeComp s0.weighted c1 with
        | error e => dsimp only; exact ⟨hloop.1, hloop.2⟩
        | ok c2 =>
          dsimp only
          cases hf2 : freezeStarts s0.weighted st1 with
          | error e =>
            refine ⟨?_, hloop.2⟩
            intro x hx
            simp only [Option.some.injEq] at hx
            cases hx
            exact freezeComp_inv hf hloop.1
          | ok st2 =>
            refine ⟨?_, ?_⟩
            · intro x hx
              simp only [Option.some.injEq] at hx
              cases hx
              exact freezeComp_inv hf hloop.1
            · intro s hs
              simp only [Option.some.injEq] at hs
              cases hs
              exact freezeStarts_inv hf2 hloop.2

/-! ### What the samplers can return -/

theorem getLast?_mem {α : Type} : ∀ {l : List α} {a : α}, l.getLast? = some a → a ∈ l := by
  intro l
  induction l with
  | nil => intro a h; cases h
  | cons x t ih =>
    intro a h
    cases t with
    | nil => simp only [List.getLast?_singleton, Option.some.injEq] at h; simp [h]
    | cons y t' =>
      rw [List.getLast?_cons_cons] at h
      exact List.mem_cons_of_mem _ (ih h)

theorem weightedPickAux_mem {α : Type} (pick : ℚ) :
    ∀ (l : List (α × Nat)) (acc : Nat) (a : α),
    weightedPickAux pick acc l = some a → a ∈ l.map Prod.fst := by
  intro l
  induction l with
  | nil => intro acc a h; cases h
  | cons p t ih =>
    intro acc a h
    rw [weightedPickAux] at h
    split at h
    · cases h; simp
    · exact List.mem_cons_of_mem _ (ih _ a h)

theorem sampleW_mem {α : Type} {entries : List (α × Nat)} {r r' : Rand} {a : α}
    (h : sampleW entries r = (.ok a, r')) : a ∈ entries.map Prod.fst := by
  unfold sampleW at h
  cases hp : popU r with
  | mk res r2 =>
    rw [hp] at h
    cases res with
    | error e => simp at h
    | ok q =>
      dsimp only at h
      cases hw : weightedPick q entries with
      | none => rw [hw] at h; simp at h
      | some b =>
        rw [hw] at h
        simp only [Prod.mk.injEq, Except.ok.injEq] at h
        exact h.1 ▸ weightedPickAux_mem q entries 0 b hw

theorem sampleU_mem {α : Type} {l : List α} {r r' : Rand} {a : α}
    (h : sampleU l r = (.ok a, r')) : a ∈ l := by
  unfold sampleU at h
  cases hp : popI r with
  | mk res r2 =>
    rw [hp] at h
    cases res with
    | error e => simp at h
    | ok n =>
      dsimp only at h
      cases l with
      | nil => simp at h
      | cons x t =>
        simp only [Prod.mk.injEq, Except.ok.injEq] at h
        exact h.1 ▸ List.get_mem _ _ _

theorem sampleStarts_mem {w : Bool} {st : StartT} {r r' : Rand} {k : Str}
    (h : sampleStarts w st r = (.ok k, r')) : k ∈ startKeys st := by
  cases w <;> cases st <;> simp only [sampleStarts] at h
  · cases h
  · cases h
  · exact sampleU_mem h
  · exact sampleW_mem h
  · exact sampleW_mem h
  · cases h

theorem samplePairs_mem {w : Bool} {c : CompT} {cur : Str} {r r' : Rand} {pr : Pair}
    (h : samplePairs w c cur r = (.ok pr, r')) : pr ∈ compPairs c := by
  cases c with
  | dd cs =>
    simp only [samplePairs] at h
    cases w with
    | false => simp only [Bool.false_eq_true, if_false] at h; cases h
    | true =>
      simp only [if_true] at h
      have hmem := sampleW_mem h
      cases hl : lookupA cur cs with
      | none => rw [hl] at hmem; simp at hmem
      | some inner =>
        rw [hl] at hmem
        simp only [compPairs]
        rw [mem_flatMapL]
        exact ⟨(cur, inner), lookupA_mem hl, hmem⟩
  | wd cs =>
    simp only [samplePairs] at h
    cases hl : lookupA cur cs with
    | none => rw [hl] at h; cases h
    | some inner =>
      rw [hl] at h
      dsimp only at h
      cases w with
      | false => simp only [Bool.false_eq_true, if_false] at h; cases h
      | true =>
        simp only [if_true] at h
        have hmem := sampleW_mem h
        simp only [compPairs]
        rw [mem_flatMapL]
        exact ⟨(cur, inner), lookupA_mem hl, hmem⟩
  | ud cs =>
    simp only [samplePairs] at h
    cases hl : lookupA cur cs with
    | none => rw [hl] at h; cases h
    | some inner =>
      rw [hl] at h
      dsimp only at h
      cases w with
      | true => simp only [if_true] at h; cases h
      | false =>
        simp only [Bool.false_eq_true, if_false] at h
        have hmem := sampleU_mem h
        simp only [compPairs]
        rw [mem_flatMapL]
        exact ⟨(cur, inner), lookupA_mem hl, hmem⟩

/-! ### The generation loop invariant -/

/-- The loop invariant of `_generate_word`: either nothing has been
emitted yet and the current key is a start key (leading marker, no other
marker), or the buffer is a leading marker followed by non-empty
marker-free material, and the current key carries a marker at most as its
final character. -/
def LoopPre (word cur : Str) : Prop :=
  (word = [] ∧ cur.head? = some marker ∧ marker ∉ cur.tail) ∨
  (∃ body, word = marker :: body ∧ body ≠ [] ∧ marker ∉ body ∧
    cur ≠ [] ∧ marker ∉ cur.dropLast)

theorem dropWhile_of_head_false {α : Type} (p : α → Bool) (a : α) (t : List α)
    (h : p a = false) : (a :: t).dropWhile p = a :: t := by
  rw [List.dropWhile_cons, h]
  simp

/-- Any word the loop returns is a single leading marker, a non-empty
marker-free middle, and a single final marker. -/
theorem genLoop_ok {weighted : Bool} {c : CompT} (hinv : InvC c) :
    ∀ (fuel : Nat) (word cur : Str) (r : Rand) {w : Str} {r' : Rand},
    LoopPre word cur →
    genLoop weighted c fuel word cur r = (.ok w, r') →
    ∃ mid, w = marker :: mid ++ [marker] ∧ mid ≠ [] ∧ marker ∉ mid := by
  intro fuel
  induction fuel with
  | zero => intro word cur r w r' _ h; cases h
  | succ f ih =>
    intro word cur r w r' hpre h
    rw [genLoop.eq_def] at h
    dsimp only at h
    by_cases hcond : cur.getLast? = some marker ∧ word ++ cur ≠ [marker]
    · rw [if_pos hcond] at h
      obtain ⟨hw, hr⟩ := Prod.mk.injEq .. ▸ h
      replace hw : w = word ++ cur := by
        cases h; rfl
      rcases hpre with ⟨hword, hhead, htail⟩ | ⟨body, hword, hbody, hmb, hcne, hcdl⟩
      · -- phase 1: the loop can never stop on its very first iteration
        exfalso
        obtain ⟨chd, ctl, rfl⟩ : ∃ chd ctl, cur = chd :: ctl := by
          cases cur with
          | nil => cases hhead
          | cons a b => exact ⟨a, b, rfl⟩
        have hchd : chd = marker := by simpa using hhead
        subst hchd
        cases ctl with
        | nil => exact hcond.2 (by simp [hword])
        | cons x ctl' =>
          rw [List.getLast?_cons_cons] at hcond
          exact htail (by simpa using getLast?_mem hcond.1)
      · -- phase 2: the returned buffer has the padded shape
        have hcne' := hcne
        obtain ⟨g, hg⟩ : ∃ g, cur.getLast? = some g := by
          cases hc : cur.getLast? with
          | none => rw [hc] at hcond; cases hcond.1
          | some g => exact ⟨g, rfl⟩
        have hgm : g = marker := by rw [hg] at hcond; cases hcond.1; rfl
        subst hgm
        have hglast : cur.getLast hcne = marker :=
          Option.some.inj ((List.getLast?_eq_getLast cur hcne).symm.trans hg)
        have hcur : cur = cur.dropLast ++ [marker] := by
          conv_lhs => rw [← List.dropLast_append_getLast hcne]
          rw [hglast]
        refine ⟨body ++ cur.dropLast, ?_, by simp [hbody], ?_⟩
        · rw [hw, hword]
          conv_lhs => rw [hcur]
          simp [List.append_assoc]
        · intro hmem
          rcases List.mem_append.mp hmem with hmem | hmem
          · exact hmb hmem
          · exact hcdl hmem
    · rw [if_neg hcond] at h
      cases hsp : samplePairs weighted c cur r with
      | mk res r2 =>
        rw [hsp] at h
        cases res with
        | error e => cases h
        | ok pr =>
          obtain ⟨m, k'⟩ := pr
          dsimp only at h
          have hgood : goodPair (m, k') := hinv _ (samplePairs_mem hsp)
          obtain ⟨hmne, hmm, hk'ne, hk'dl⟩ := hgood
          refine ih (word ++ cur ++ m) k' r2 ?_ h
          rcases hpre with ⟨hword, hhead, htail⟩ | ⟨body, hword, hbody, hmb, hcne, hcdl⟩
          · -- after the first transition the buffer is marker :: (tail ++ middle)
            obtain ⟨chd, ctl, rfl⟩ : ∃ chd ctl, cur = chd :: ctl := by
              cases cur with
              | nil => cases hhead
              | cons a b => exact ⟨a, b, rfl⟩
            have hchd : chd = marker := by simpa using hhead
            subst hchd
            refine Or.inr ⟨ctl ++ m, ?_, by simp [hmne], ?_, hk'ne, hk'dl⟩
            · rw [hword]; simp
            · intro hmem
              rcases List.mem_append.mp hmem with hmem | hmem
              · exact htail (by simpa using hmem)
              · exact hmm hmem
          · -- later transitions extend the marker-free body
            have hmc : marker ∉ cur := by
              intro hmem
              have hglast : cur.getLast? ≠ some marker := by
                intro hg
                apply hcond
                refine ⟨hg, ?_⟩
                rw [hword]
                intro hbad
                have h1 := congrArg List.length hbad
                have h2 : 0 < cur.length := List.length_pos.mpr hcne
                simp only [List.cons_append, List.length_cons, List.length_append,
                  List.length_nil, List.length_singleton] at h1
                omega
              rw [← List.dropLast_append_getLast hcne] at hmem
              rcases List.mem_append.mp hmem with hmem | hmem
              · exact hcdl hmem
              · apply hglast
                rw [List.getLast?_eq_getLast _ hcne]
                simp only [List.mem_singleton] at hmem
                rw [← hmem]
            refine Or.inr ⟨body ++ cur ++ m, ?_, by simp [hbody], ?_, hk'ne, hk'dl⟩
            · rw [hword]; simp [List.append_assoc]
            · intro hmem
              rcases List.mem_append.mp hmem with hmem | hmem
              · rcases List.mem_append.mp hmem with hmem | hmem
                · exact hmb hmem
                · exact hmc hmem
              · exact hmm hmem

/-- Stripping the markers off a padded word recovers the middle. -/
theorem pyStrip_padded {mid : Str} (hne : mid ≠ []) (hnm : marker ∉ mid) :
    pyStrip (marker :: mid ++ [marker]) = mid := by
  obtain ⟨mhd, mtl, rfl⟩ := List.exists_cons_of_ne_nil hne
  have hmhd : mhd ≠ marker := fun hc => hnm (by simp [hc])
  unfold pyStrip
  rw [show (marker :: (mhd :: mtl) ++ [marker] : Str) =
    marker :: mhd :: (mtl ++ [marker]) by simp]
  rw [List.dropWhile_cons_of_pos (by simp), List.dropWhile_cons_of_neg (by simp [hmhd])]
  rw [show (mhd :: (mtl ++ [marker]) : Str).reverse = marker :: (mhd :: mtl).reverse by simp]
  rw [List.dropWhile_cons_of_pos (by simp)]
  cases hrev : (mhd :: mtl).reverse with
  | nil => simp at hrev
  | cons a t =>
    have ha : a ∈ mhd :: mtl := by rw [← List.mem_reverse, hrev]; simp
    have han : a ≠ marker := fun hc => hnm (hc ▸ ha)
    rw [List.dropWhile_cons_of_neg (by simp [han])]
    rw [← hrev, List.reverse_reverse]

/-- Any word `_generate_word` returns from a well-shaped model is
non-empty and marker-free. -/
theorem generateWordRaw_ok {s : GenState} {fuel : Nat} {r r' : Rand} {w : Str}
    (hc : ∀ x, s.components = some x → InvC x)
    (hs : ∀ st, s.starts = some st → InvS st)
    (h : generateWordRaw s fuel r = (.ok w, r')) : w ≠ [] ∧ marker ∉ w := by
  unfold generateWordRaw at h
  cases hco : s.components with
  | none => rw [hco] at h; cases h
  | some c =>
    rw [hco] at h
    dsimp only at h
    by_cases hce : compEmpty c
    · rw [if_pos hce] at h; cases h
    · rw [if_neg hce] at h
      cases hst : s.starts with
      | none => rw [hst] at h; cases h
      | some st =>
        rw [hst] at h
        dsimp only at h
        cases hss : sampleStarts s.weighted st r with
        | mk res r2 =>
          rw [hss] at h
          cases res with
          | error e => cases h
          | ok k0 =>
            dsimp only at h
            have hk0 : goodStart k0 := hs st hst k0 (sampleStarts_mem hss)
            cases hgl : genLoop s.weighted c fuel [] k0 r2 with
            | mk res2 r3 =>
              rw [hgl] at h
              cases res2 with
              | error e => cases h
              | ok wraw =>
                dsimp only at h
                obtain ⟨hw, -⟩ := Prod.mk.injEq .. ▸ h
                replace hw : w = pyStrip wraw := by cases h; rfl
                obtain ⟨mid, hmid, hmne, hmm⟩ :=
                  genLoop_ok (hc c hco) fuel [] k0 r2
                    (Or.inl ⟨rfl, hk0.1, hk0.2⟩) hgl
                rw [hw, hmid, pyStrip_padded hmne hmm]
                exact ⟨hmne, hmm⟩

/-! ### Characterisation of the weighted choice -/

/-- `sum(choices.values())`. -/
def sumW {α : Type} (l : List (α × Nat)) : Nat := (l.map Prod.snd).sum

/-- The running sum after the first `i` entries. -/
def cumW {α : Type} (l : List (α × Nat)) (i : Nat) : Nat :=
  ((l.take i).map Prod.snd).sum

theorem cumW_one {α : Type} (a : α) (n : Nat) (t : List (α × Nat)) :
    cumW ((a, n) :: t) 1 = n := by
  simp [cumW]

theorem cumW_cons_succ {α : Type} (a : α) (n : Nat) (t : List (α × Nat)) (j : Nat) :
    cumW ((a, n) :: t) (j + 1) = n + cumW t j := by
  simp [cumW, List.take_succ_cons]

theorem weightedPickAux_shift {α : Type} :
    ∀ (l : List (α × Nat)) (acc : Nat) (d : ℚ),
    weightedPickAux d acc l = weightedPickAux (d - acc) 0 l := by
  intro l
  induction l with
  | nil => intro acc d; rfl
  | cons p t ih =>
    intro acc d
    obtain ⟨a, n⟩ := p
    rw [weightedPickAux, weightedPickAux]
    have hcond : (d < ((acc + n : Nat) : ℚ)) ↔ (d - acc < ((0 + n : Nat) : ℚ)) := by
      push_cast
      constructor <;> intro <;> linarith
    by_cases hc : d < ((acc + n : Nat) : ℚ)
    · rw [if_pos hc, if_pos (hcond.mp hc)]
    · rw [if_neg hc, if_neg (fun hx => hc (hcond.mpr hx))]
      rw [ih (acc + n) d, ih (0 + n) (d - acc)]
      congr 1
      push_cast
      ring

theorem weightedPick_cons {α : Type} (a : α) (n : Nat) (t : List (α × Nat)) (d : ℚ) :
    weightedPick d ((a, n) :: t) =
      if d < (n : ℚ) then some a else weightedPick (d - n) t := by
  unfold weightedPick
  rw [weightedPickAux]
  by_cases hc : d < ((0 + n : Nat) : ℚ)
  · rw [if_pos hc, if_pos (by push_cast at hc ⊢; linarith)]
  · rw [if_neg hc, if_neg (by push_cast at hc ⊢; linarith)]
    rw [weightedPickAux_shift]
    congr 1
    push_cast
    ring

/-- The weighted choice returns exactly the first candidate, in stored
order, whose running sum strictly exceeds the draw. -/
theorem weightedPick_first {α : Type} :
    ∀ (l : List (α × Nat)) (d : ℚ), 0 ≤ d → d < (sumW l : ℚ) →
    ∃ (i : Nat) (hi : i < l.length),
      weightedPick d l = some (l.get ⟨i, hi⟩).1 ∧
      d < (cumW l (i + 1) : ℚ) ∧ ∀ j < i, (cumW l (j + 1) : ℚ) ≤ d := by
  intro l
  induction l with
  | nil =>
    intro d h0 hlt
    exfalso
    simp [sumW] at hlt
    linarith
  | cons p t ih =>
    intro d h0 hlt
    obtain ⟨a, n⟩ := p
    rw [weightedPick_cons]
    by_cases hd : d < (n : ℚ)
    · refine ⟨0, by simp, ?_, ?_, ?_⟩
      · rw [if_pos hd]; rfl
      · rw [cumW_one]; exact hd
      · intro j hj; cases hj
    · have hn : (n : ℚ) ≤ d := not_lt.mp hd
      have h0' : 0 ≤ d - n := by linarith
      have hlt' : d - n < (sumW t : ℚ) := by
        have : (sumW ((a, n) :: t) : ℚ) = n + sumW t := by
          simp [sumW]
        rw [this] at hlt
        linarith
      obtain ⟨i, hi, hpick, hcum, hmin⟩ := ih (d - n) h0' hlt'
      refine ⟨i + 1, by simpa using Nat.succ_lt_succ hi, ?_, ?_, ?_⟩
      · rw [if_neg hd, hpick]
        rfl
      · rw [cumW_cons_succ]
        push_cast
        linarith
      · intro j hj
        cases j with
        | zero => rw [cumW_one]; exact hn
        | succ j' =>
          rw [cumW_cons_succ]
          have := hmin j' (by omega)
          push_cast
          push_cast at this
          linarith

/-! ### The default-limit filter always fails -/

/-- With `limit = None` the filter `minimum < len(item) < maximum`
compares an `int` with `None` on every positively-sized candidate and
skips the rest, so pulling a word can only ever end in an exception. -/
theorem nextWordAux_noLimit_fails (s : GenState) :
    ∀ (fuel : Nat) (r : Rand), ∃ e, (nextWordAux s 0 none fuel r).1 = .error e := by
  intro fuel
  induction fuel with
  | zero => intro r; exact ⟨.outOfFuel, rfl⟩
  | succ f ih =>
    intro r
    rw [nextWordAux]
    cases hg : generateWordRaw s (f + 1) r with
    | mk res r2 =>
      cases res with
      | error e => exact ⟨e, rfl⟩
      | ok w =>
        dsimp only
        rw [lenFilter]
        by_cases hl : (0 : Int) < (w.length : Int)
        · rw [if_pos hl]
          exact ⟨.typeError, rfl⟩
        · rw [if_neg hl]
          exact ih r2

/-! ### Segmentation reconstruction (round-trip) -/

/-- Reconstruct the scanned string from consecutive triplets: concatenate
`key ++ middle` for every triplet and close with the last triplet's
trailing vowel run (which, by overlap, is the only run not already a
later key). -/
def reconFull : List (Str × Str × Str) → Str
  | [] => []
  | [kv] => kv.1 ++ kv.2.1 ++ kv.2.2
  | kv :: ts => kv.1 ++ kv.2.1 ++ reconFull ts

/-- Reconstruction exactly as the claim words it: `leadingVowels ++
middle` over the triplets, nothing else. -/
def reconClaim (ts : List (Str × Str × Str)) : Str :=
  flatMapL (fun kv => kv.1 ++ kv.2.1) ts

/-- Removing the boundary markers. -/
def eraseMarkers (l : Str) : Str := l.filter (fun c => c ≠ marker)

/-- On a string that starts and ends with a vowel and contains at least
one non-vowel, the scanner's triplets cover the whole string:
concatenating `key ++ middle` over all triplets and closing with the last
trailing run reproduces the input. -/
theorem ftAux_recon (p : Char → Bool) :
    ∀ (fuel : Nat) (l : Str), l.length ≤ fuel →
    (∃ c, l.head? = some c ∧ p c) →
    (∃ c, l.getLast? = some c ∧ p c) →
    (∃ c ∈ l, p c = false) →
    ftAux p fuel l ≠ [] ∧ reconFull (ftAux p fuel l) = l := by
  intro fuel
  induction fuel with
  | zero =>
    intro l hlen hhead _ _
    obtain ⟨c, hc, -⟩ := hhead
    have hnil : l = [] := List.eq_nil_of_length_eq_zero (Nat.le_zero.mp hlen)
    rw [hnil] at hc
    cases hc
  | succ f ih =>
    intro l hlen hhead hlast hnv
    obtain ⟨c0, hc0, hpc0⟩ := hhead
    obtain ⟨lhd, ltl, rfl⟩ : ∃ lhd ltl, l = lhd :: ltl := by
      cases l with
      | nil => cases hc0
      | cons a t => exact ⟨a, t, rfl⟩
    have hc0' : lhd = c0 := by simpa using hc0
    subst hc0'
    set l := lhd :: ltl with hl
    have hk : l.takeWhile p ≠ [] := by
      rw [hl, List.takeWhile_cons, if_pos hpc0]
      simp
    have hsplit1 : l.takeWhile p ++ l.dropWhile p = l :=
      List.takeWhile_append_dropWhile p l
    have hrest : l.dropWhile p ≠ [] := by
      intro hre
      obtain ⟨c, hcl, hcp⟩ := hnv
      rw [hre, List.append_nil] at hsplit1
      rw [← hsplit1] at hcl
      have := List.mem_takeWhile_imp hcl
      rw [this] at hcp
      cases hcp
    obtain ⟨rc, rt, hrc⟩ : ∃ rc rt, l.dropWhile p = rc :: rt := by
      cases hre : l.dropWhile p with
      | nil => exact absurd hre hrest
      | cons a t => exact ⟨a, t, rfl⟩
    have hrc_not : p rc = false := dropWhile_head_not p l hrc
    have hm : (l.dropWhile p).takeWhile (fun c => !p c) ≠ [] := by
      rw [hrc, List.takeWhile_cons]
      simp [hrc_not]
    have hsplit2 : (l.dropWhile p).takeWhile (fun c => !p c) ++
        (l.dropWhile p).dropWhile (fun c => !p c) = l.dropWhile p :=
      List.takeWhile_append_dropWhile (fun c => !p c) (l.dropWhile p)
    have hrest2 : (l.dropWhile p).dropWhile (fun c => !p c) ≠ [] := by
      intro hre2
      obtain ⟨g, hg, hgp⟩ := hlast
      have hsplit2' : (l.dropWhile p).takeWhile (fun c => !p c) = l.dropWhile p := by
        have h2 := hsplit2
        rw [hre2, List.append_nil] at h2
        exact h2
      rw [← hsplit1, List.getLast?_append_of_ne_nil _ hrest] at hg
      have hgmem := getLast?_mem hg
      rw [← hsplit2'] at hgmem
      have := List.mem_takeWhile_imp hgmem
      simp only [Bool.not_eq_true'] at this
      rw [this] at hgp
      cases hgp
    obtain ⟨c2, t2, hc2⟩ : ∃ c2 t2,
        (l.dropWhile p).dropWhile (fun c => !p c) = c2 :: t2 := by
      cases hre : (l.dropWhile p).dropWhile (fun c => !p c) with
      | nil => exact absurd hre hrest2
      | cons a t => exact ⟨a, t, rfl⟩
    have hc2p : p c2 = true := by
      have := dropWhile_head_not (fun c => !p c) (l.dropWhile p) hc2
      simpa using this
    have hk' : ((l.dropWhile p).dropWhile (fun c => !p c)).takeWhile p ≠ [] := by
      rw [hc2, List.takeWhile_cons, if_pos hc2p]
      simp
    rw [ftAux.eq_def]
    dsimp only
    rw [if_neg hk, if_neg hm, if_neg hk']
    set rest2 := (l.dropWhile p).dropWhile (fun c => !p c) with hr2
    have hlen2 : rest2.length ≤ f := by
      have h1 := congrArg List.length hsplit1
      have h2 := congrArg List.length hsplit2
      simp only [List.length_append] at h1 h2
      have hk_pos : 0 < (l.takeWhile p).length := List.length_pos.mpr hk
      have hm_pos : 0 < ((l.dropWhile p).takeWhile (fun c => !p c)).length :=
        List.length_pos.mpr hm
      omega
    have hdec : l = l.takeWhile p ++
        ((l.dropWhile p).takeWhile (fun c => !p c) ++ rest2) := by
      rw [hsplit2, hsplit1]
    by_cases hnv2 : ∃ c ∈ rest2, p c = false
    · have hhead2 : ∃ c, rest2.head? = some c ∧ p c := ⟨c2, by rw [hc2]; rfl, hc2p⟩
      have hlast2 : ∃ c, rest2.getLast? = some c ∧ p c := by
        obtain ⟨g, hg, hgp⟩ := hlast
        refine ⟨g, ?_, hgp⟩
        rw [← hsplit1, List.getLast?_append_of_ne_nil _ hrest] at hg
        rw [← hsplit2, List.getLast?_append_of_ne_nil _ hrest2] at hg
        exact hg
      obtain ⟨hne, hrec⟩ := ih rest2 hlen2 hhead2 hlast2 hnv2
      refine ⟨by simp, ?_⟩
      obtain ⟨x, xs, hxs⟩ : ∃ x xs, ftAux p f rest2 = x :: xs := by
        cases hxx : ftAux p f rest2 with
        | nil => exact absurd hxx hne
        | cons a t => exact ⟨a, t, rfl⟩
      rw [hxs]
      rw [show reconFull ((l.takeWhile p, (l.dropWhile p).takeWhile (fun c => !p c),
          rest2.takeWhile p) :: x :: xs) =
        l.takeWhile p ++ (l.dropWhile p).takeWhile (fun c => !p c) ++
          reconFull (x :: xs) from rfl]
      rw [← hxs, hrec]
      conv_rhs => rw [hdec]
      simp [List.append_assoc]
    · push_neg at hnv2
      have hall : ∀ c ∈ rest2, p c := by
        intro c hc
        have := hnv2 c hc
        simpa using this
      have hend : ftAux p f rest2 = [] := ftAux_allP p f rest2 hall
      have hkeq : rest2.takeWhile p = rest2 := takeWhile_all p hall
      rw [hend]
      refine ⟨by simp, ?_⟩
      rw [show reconFull [(l.takeWhile p, (l.dropWhile p).takeWhile (fun c => !p c),
          rest2.takeWhile p)] =
        l.takeWhile p ++ ((l.dropWhile p).takeWhile (fun c => !p c) ++
          rest2.takeWhile p) from by simp [reconFull]]
      rw [hkeq]
      conv_rhs => rw [hdec]

/-! ### Concrete fixtures -/

/-- A freshly constructed weighted generator (`WordGenerator()`), never
seeded: no `vowels`, `components` or `starts` attribute exists yet. -/
def freshW : GenState := { weighted := true }

/-- A freshly constructed unweighted generator, never seeded. -/
def freshU : GenState := { weighted := false }

/-- The weighted generator seeded with the corpus `["cat"]`. -/
def catW : GenState := ((seed [['c', 'a', 't']] ENGLISH_VOWELS false freshW).1).1

/-- The unweighted generator seeded with the corpus `["cat"]`. -/
def catU : GenState := ((seed [['c', 'a', 't']] ENGLISH_VOWELS false freshU).1).1

/-- `WordGenerator()` built through `__init__` with no seed source. -/
def freshInit : GenState := (pyInit none true ENGLISH_VOWELS).1.1

/-- Extract the payload of a successful save (`J.null` on failure). -/
def okOr (x : Except PyError J) : J :=
  match x with
  | .ok d => d
  | .error _ => .null

/-- The JSON document `save` produces for `catW`. -/
def catDoc : J := okOr (save catW)

/-- The transition table of `catW`, written out. -/
def catCS : CTable :=
  [([marker], [((['c'], ['a']), 1)]), (['a'], [((['t'], [marker]), 1)])]

/-- A serialised model with valid components but no `starts` field. -/
def docNoStarts : J :=
  .obj [("weighted", .b true), ("components", encComponents catCS)]

/-- A serialised model whose `weighted` flag is `false` although every
entry carries a count (the flag is inconsistent with the entries). -/
def docMismatch : J :=
  .obj [("weighted", .b false), ("starts", .obj [("~", .n 1)]),
        ("components", encComponents catCS)]

/-- The module-level shared state: `seed`'s default argument
`vowels=ENGLISH_VOWELS` was evaluated once at class-definition time, so
every default-argument call reads and mutates this one set object. -/
structure ClassEnv where
  englishVowels : List Char

/-- A `seed` call with the `vowels` argument omitted: the shared default
set is passed by reference, and the in-place `add` is visible to every
later default-argument call in the process. -/
def seedDefault (env : ClassEnv) (words : List Str) (append : Bool) (s : GenState) :
    ClassEnv × (GenState × Option PyError) :=
  let r := seed words env.englishVowels append s
  (⟨r.1.2⟩, (r.1.1, r.2))

/-- `seed` always hands back the caller's vowel set with the marker added
(the mutation happens before anything can fail). -/
theorem seed_vowels_out (words : List Str) (vowels : List Char) (append : Bool)
    (s : GenState) : (seed words vowels append s).1.2 = setAdd marker vowels := by
  rw [seed]
  dsimp only
  split
  · rfl
  · split
    · rfl
    · split
      · rfl
      · split <;> rfl

/-- Removing markers from the padded form of a marker-free word gives the
word back. -/
theorem eraseMarkers_padded {w : Str} (hw : marker ∉ w) :
    eraseMarkers (marker :: w ++ [marker]) = w := by
  unfold eraseMarkers
  rw [show (marker :: w ++ [marker] : Str) = marker :: (w ++ [marker]) from rfl]
  rw [List.filter_cons_of_neg (by simp)]
  rw [List.filter_append]
  rw [List.filter_eq_self.mpr (by
    intro a ha
    simpa using fun hc : a = marker => hw (hc ▸ ha))]
  simp [List.filter]

/-! ### The claims -/

/-- C1: the save/load round-trip.  The claim covers weighted and
unweighted models; in fact an unweighted seeded model cannot be saved at
all (`values.items()` on the inner lists raises `AttributeError`), while
the weighted round-trip does reproduce the transition table, the start
table and the flag exactly. -/
theorem c1_save_load_roundtrip :
    save catU = .error .attributeError ∧
    save catW = .ok catDoc ∧
    (load catDoc freshU).1.components = catW.components ∧
    (load catDoc freshU).1.starts = catW.starts ∧
    (load catDoc freshU).1.weighted = catW.weighted ∧
    (load catDoc freshU).2 = none := by
  refine ⟨rfl, rfl, ?_, ?_, ?_, rfl⟩ <;> decide

/-- C2: generating from a freshly constructed, never-seeded generator
fails before any random draw (the random stream is returned untouched) —
but with `AttributeError` (`self.components` was never assigned), not the
library's `EmptyDictionaryError`. -/
theorem c2_unseeded_generation_attribute_error :
    ∀ (limit : PyLimit) (f : Nat) (r : Rand),
    generate_word freshInit limit (f + 1) r = (.error .attributeError, r) :=
  fun _ _ _ => rfl

/-- C3 (counterexample): the all-vowel word `"aa"` (padded `"~aa~"`)
yields no `(key, value)` pair at all — not an empty-middle pair as the
claim states (the regex requires a non-empty non-vowel run). -/
theorem c3_counterexample :
    split_word (setAdd marker ENGLISH_VOWELS) ['a', 'a'] = [] := by decide

/-- C3 (amended): a word all of whose characters are vowels (so its two
padded vowel runs are adjacent with no consonant between them) yields no
segment pair at all. -/
theorem c3_all_vowel_word_yields_no_pairs (vs : List Char) (w : Str)
    (h : ∀ c ∈ w, c ∈ setAdd marker vs) :
    split_word (setAdd marker vs) w = [] := by
  unfold split_word findTriplets
  apply ftAux_allP
  intro c hc
  simp only [List.cons_append, List.mem_cons, List.mem_append,
    List.mem_singleton, List.not_mem_nil, or_false] at hc
  rcases hc with rfl | hc | rfl
  · simpa using mem_setAdd_self marker vs
  · simpa using h c hc
  · simpa using mem_setAdd_self marker vs

theorem c3_witness : split_word (setAdd marker ENGLISH_VOWELS) ['o', 'u'] = [] :=
  c3_all_vowel_word_yields_no_pairs ENGLISH_VOWELS ['o', 'u'] (by decide)

/-- C4 (counterexample): concatenating only `leadingVowels ++ middle`
over the triplets and removing markers does not reproduce the word: the
all-vowel word `"aa"` reconstructs to `""`, and `"data"` (which ends in a
vowel run) reconstructs to `"dat"`. -/
theorem c4_counterexample :
    eraseMarkers (reconClaim (split_word (setAdd marker ENGLISH_VOWELS)
      ['a', 'a'])) ≠ ['a', 'a'] ∧
    eraseMarkers (reconClaim (split_word (setAdd marker ENGLISH_VOWELS)
      ['d', 'a', 't', 'a'])) ≠ ['d', 'a', 't', 'a'] := by decide

/-- C4 (amended): for a marker-free word with at least one non-vowel
character, concatenating `leadingVowels ++ middle` over the consecutive
triplets **plus the final triplet's trailing vowel run**, then removing
the boundary markers, yields back exactly the word. -/
theorem c4_segmentation_roundtrip (vs : List Char) (w : Str) (hw : marker ∉ w)
    (hnv : ∃ c ∈ w, c ∉ setAdd marker vs) :
    eraseMarkers (reconFull (split_word (setAdd marker vs) w)) = w := by
  have hrec := ftAux_recon (fun c => c ∈ setAdd marker vs)
    (marker :: w ++ [marker]).length (marker :: w ++ [marker]) le_rfl
    ⟨marker, rfl, by simpa using mem_setAdd_self marker vs⟩
    ⟨marker, by
      rw [show (marker :: w ++ [marker] : Str) = (marker :: w) ++ [marker] from rfl]
      exact List.getLast?_concat _, by simpa using mem_setAdd_self marker vs⟩
    (by
      obtain ⟨c, hcw, hcv⟩ := hnv
      exact ⟨c, by simp [hcw], by simpa using hcv⟩)
  obtain ⟨-, hrec⟩ := hrec
  unfold split_word findTriplets
  rw [hrec]
  exact eraseMarkers_padded hw

theorem c4_witness :
    eraseMarkers (reconFull (split_word (setAdd marker ENGLISH_VOWELS)
      ['d', 'a', 't', 'a'])) = ['d', 'a', 't', 'a'] :=
  c4_segmentation_roundtrip ENGLISH_VOWELS ['d', 'a', 't', 'a'] (by decide)
    ⟨'d', by decide, by decide⟩

/-- C5 (counterexample): `load` is not atomic and does not validate the
flag: a document with valid components but no `starts` field fails with
`KeyError` *after* replacing the transition table (the model is changed),
and a document whose `weighted` flag is inconsistent with its counted
entries loads without any error. -/
theorem c5_counterexample :
    ((load docNoStarts freshW).2 = some .keyError ∧
      (load docNoStarts freshW).1 ≠ freshW) ∧
    (load docMismatch freshW).2 = none := by decide

/-- C5 (amended): when decoding the `components` field fails (missing
field or malformed payload), `load` fails leaving the model unchanged;
but when the components decode and a later field is missing, the failure
leaves a partially populated model (new transition table, stale start
table); and a `weighted` flag inconsistent with the entries is accepted
without error. -/
theorem c5_load_atomicity :
    (∀ (doc : J) (s : GenState) (e : PyError),
      decodeComponents doc = .error e → load doc s = (s, some e)) ∧
    (load docNoStarts freshW).1.components = some (.wd catCS) ∧
    (load docNoStarts freshW).1.starts = none ∧
    (load docNoStarts freshW).2 = some .keyError ∧
    (load docMismatch freshW).2 = none := by
  refine ⟨?_, by decide, rfl, rfl, rfl⟩
  intro doc s e h
  unfold load
  rw [h]

theorem c5_witness : load J.null freshW = (freshW, some .typeError) :=
  c5_load_atomicity.1 J.null freshW .typeError rfl

/-- C6: the weighted random choice draws `d` and returns the first
candidate, in stored order, whose cumulative running sum strictly exceeds
`d`; with counts 2, 3, 5 the draws 1, 4, 9 select candidates 1, 2, 3. -/
theorem c6_weighted_choice_first_exceeding :
    (∀ (α : Type) (l : List (α × Nat)) (d : ℚ), 0 ≤ d → d < (sumW l : ℚ) →
      ∃ (i : Nat) (hi : i < l.length),
        weightedPick d l = some (l.get ⟨i, hi⟩).1 ∧
        d < (cumW l (i + 1) : ℚ) ∧ ∀ j < i, (cumW l (j + 1) : ℚ) ≤ d) ∧
    weightedPick 1 [(1, 2), (2, 3), (3, 5)] = some 1 ∧
    weightedPick 4 [(1, 2), (2, 3), (3, 5)] = some 2 ∧
    weightedPick 9 [(1, 2), (2, 3), (3, 5)] = some 3 :=
  ⟨fun _ l d h0 hlt => weightedPick_first l d h0 hlt, by decide, by decide, by decide⟩

theorem c6_witness :
    ∃ (i : Nat) (hi : i < ([(1, 2), (2, 3), (3, 5)] : List (Nat × Nat)).length),
      weightedPick 4 [(1, 2), (2, 3), (3, 5)] =
        some (([(1, 2), (2, 3), (3, 5)] : List (Nat × Nat)).get ⟨i, hi⟩).1 ∧
      (4 : ℚ) < (cumW [(1, 2), (2, 3), (3, 5)] (i + 1) : ℚ) ∧
      ∀ j < i, (cumW [(1, 2), (2, 3), (3, 5)] (j + 1) : ℚ) ≤ 4 :=
  c6_weighted_choice_first_exceeding.1 Nat [(1, 2), (2, 3), (3, 5)] 4
    (by norm_num) (by norm_num [sumW])

/-- C7: appending a second corpus to an already-seeded model does not
merge it: the frozen tables are plain dicts/lists, so the first genuinely
new value pair raises `KeyError` in weighted mode (after already bumping
the start counter — a partial mutation), and unweighted mode raises
`TypeError` immediately.  Appending `["dog"]` onto the `["cat"]` model
exhibits both. -/
theorem c7_append_seed_crashes :
    (seed [['d', 'o', 'g']] ENGLISH_VOWELS true catW).2 = some .keyError ∧
    ((seed [['d', 'o', 'g']] ENGLISH_VOWELS true catW).1.1).starts =
      some (.smap [([marker], 2)]) ∧
    ((seed [['d', 'o', 'g']] ENGLISH_VOWELS true catW).1.1).components =
      catW.components ∧
    (seed [['d', 'o', 'g']] ENGLISH_VOWELS true catU).2 = some .typeError := by
  refine ⟨rfl, ?_, ?_, rfl⟩ <;> decide

/-- C8: every word `_generate_word` actually returns from a model seeded
with a marker-free corpus — whatever the random draws — has length at
least 1 and contains no boundary marker. -/
theorem c8_generated_word_nonempty_marker_free
    (corpus : List Str) (vowels : List Char) (s0 : GenState)
    (hw : ∀ w ∈ processedWords corpus, marker ∉ w)
    (fuel : Nat) (r r' : Rand) (w : Str)
    (hgen : generateWordRaw ((seed corpus vowels false s0).1.1) fuel r = (.ok w, r')) :
    1 ≤ w.length ∧ marker ∉ w := by
  obtain ⟨hc, hs⟩ := seed_fresh_inv corpus vowels s0 hw
  have h := generateWordRaw_ok hc hs hgen
  exact ⟨List.length_pos.mpr h.1, h.2⟩

theorem c8_witness : 1 ≤ (['c', 'a', 't'] : Str).length ∧
    marker ∉ (['c', 'a', 't'] : Str) :=
  c8_generated_word_nonempty_marker_free [['c', 'a', 't']] ENGLISH_VOWELS freshW
    (by decide) 5 ⟨[0, 0, 0], []⟩ ⟨[], []⟩ ['c', 'a', 't'] rfl

/-- C9: `generate_word()` with the default `limit=None` can never return
a word: the limit normalises to `(0, None)` and the filter comparison
`len(word) < None` raises `TypeError` on the first candidate of positive
length (shorter candidates are silently skipped, so no word ever
passes); on the seeded `["cat"]` model the failure is exactly that
`TypeError`. -/
theorem c9_default_limit_never_returns :
    (∀ (s : GenState) (fuel : Nat) (r : Rand),
      ∃ e, (generate_word s .noLimit fuel r).1 = .error e) ∧
    (generate_word catW .noLimit 5 ⟨[0, 0, 0], []⟩).1 = .error .typeError :=
  ⟨fun s fuel r => nextWordAux_noLimit_fails s fuel r, rfl⟩

/-- C10: `seed` mutates the caller's vowel set in place, adding the
marker; when the argument is omitted, the shared class-level default set
itself is mutated, so after any default-argument seeding the marker is a
member of the default set every instance sees from then on. -/
theorem c10_seed_mutates_vowel_set :
    ∀ (env : ClassEnv) (words : List Str) (append : Bool) (s : GenState)
      (vs : List Char),
    (seed words vs append s).1.2 = setAdd marker vs ∧
    marker ∈ (seed words vs append s).1.2 ∧
    (seedDefault env words append s).1.englishVowels =
      setAdd marker env.englishVowels ∧
    marker ∈ (seedDefault env words append s).1.englishVowels := by
  intro env words append s vs
  refine ⟨seed_vowels_out words vs append s, ?_, ?_, ?_⟩
  · rw [seed_vowels_out]
    exact mem_setAdd_self marker vs
  · show (seed words env.englishVowels append s).1.2 = setAdd marker env.englishVowels
    exact seed_vowels_out words env.englishVowels append s
  · show marker ∈ (seed words env.englishVowels append s).1.2
    rw [seed_vowels_out]
    exact mem_setAdd_self marker env.englishVowels

end WordGen
